import Mathlib

/-!
# Verification of the ganttdsl constraint-based scheduler

Shallow embedding of `src/ganttdsl/dsl.py` (classes `Task`, `Team`,
`ScheduledTask`, `Plan`, `Scheduler`, `CriticalPathScheduler`).

Conventions:
* Calendar dates are modelled as natural numbers (absolute day count);
  the default workday filter `lambda d: d.weekday() < 5` becomes
  `fun d => d % 7 < 5` with the convention that a date `d` with
  `d % 7 = 0` is a Monday.
* Python's CP solver (cpmpy) is external to the repository; it is modelled
  by an abstract `solve` function handed to `schedule`, together with the
  predicate "the assignment satisfies every emitted constraint", which is
  what a sound CP solver guarantees about any assignment it returns.
* Python exceptions are modelled with `Except`.
-/

namespace Ganttdsl

/-! ## Workday calendar (`Plan.__init__`, dsl.py lines 166-174)

The Python loop advances `current_date` one day at a time, skipping any
date for which the workday filter is false.  The loop terminates exactly
when later workdays always exist, which we carry as the hypothesis `hf`
(the spec's precondition that the predicate holds for infinitely many
dates). -/

/-- There is a workday strictly after `c` (shifted form used by `Nat.find`). -/
theorem nextWork_ex (f : Nat → Bool) (hf : ∀ n, ∃ m, n < m ∧ f m = true)
    (c : Nat) : ∃ k, f (c + 1 + k) = true := by
  obtain ⟨m, hm, hfm⟩ := hf c
  exact ⟨m - (c + 1), by rwa [Nat.add_sub_cancel' hm]⟩

/-- The first workday strictly after `c`: the `while not workday_filter`
loop of `Plan.__init__`. -/
def nextWork (f : Nat → Bool) (hf : ∀ n, ∃ m, n < m ∧ f m = true)
    (c : Nat) : Nat :=
  c + 1 + Nat.find (nextWork_ex f hf c)

theorem lt_nextWork (f : Nat → Bool) (hf : ∀ n, ∃ m, n < m ∧ f m = true)
    (c : Nat) : c < nextWork f hf c := by
  unfold nextWork; omega

theorem nextWork_isWorkday (f : Nat → Bool) (hf : ∀ n, ∃ m, n < m ∧ f m = true)
    (c : Nat) : f (nextWork f hf c) = true :=
  Nat.find_spec (nextWork_ex f hf c)

theorem nextWork_min (f : Nat → Bool) (hf : ∀ n, ∃ m, n < m ∧ f m = true)
    (c x : Nat) (h1 : c < x) (h2 : x < nextWork f hf c) : f x = false := by
  have h3 : x - (c + 1) < Nat.find (nextWork_ex f hf c) := by
    unfold nextWork at h2; omega
  have h4 := Nat.find_min (nextWork_ex f hf c) h3
  have h5 : c + 1 + (x - (c + 1)) = x := by omega
  rw [h5] at h4
  simpa using h4

/-- `days_to_date` of `Plan.__init__`: index `0` is `start_date` itself
(whether or not it is a workday); index `d+1` is the first workday strictly
after index `d`. -/
def daysToDate (f : Nat → Bool) (hf : ∀ n, ∃ m, n < m ∧ f m = true)
    (start : Nat) : Nat → Nat
  | 0 => start
  | d + 1 => nextWork f hf (daysToDate f hf start d)

theorem daysToDate_zero (f : Nat → Bool) (hf : ∀ n, ∃ m, n < m ∧ f m = true)
    (start : Nat) : daysToDate f hf start 0 = start := rfl

theorem daysToDate_succ_workday (f : Nat → Bool)
    (hf : ∀ n, ∃ m, n < m ∧ f m = true) (start d : Nat) :
    f (daysToDate f hf start (d + 1)) = true :=
  nextWork_isWorkday f hf _

theorem daysToDate_strictMono (f : Nat → Bool)
    (hf : ∀ n, ∃ m, n < m ∧ f m = true) (start : Nat) :
    StrictMono (daysToDate f hf start) :=
  strictMono_nat_of_lt_succ fun d => lt_nextWork f hf (daysToDate f hf start d)

/-- The default workday filter `lambda d: d.weekday() < 5` (Mon-Fri). -/
def defaultWorkday (d : Nat) : Bool := decide (d % 7 < 5)

/-- Workdays never run out under the default Mon-Fri filter. -/
theorem defaultWorkday_inf : ∀ n, ∃ m, n < m ∧ defaultWorkday m = true := by
  intro n
  refine ⟨7 * (n / 7) + 7, ?_, ?_⟩
  · have := Nat.div_add_mod n 7
    omega
  · unfold defaultWorkday
    have : (7 * (n / 7) + 7) % 7 = 0 := by omega
    simp [this]

/-! ## ScheduledTask (dsl.py lines 100-154)

`daily_engineer_allocation` is a Python `defaultdict(int)` whose items we
model as an association list `List (Nat × Nat)` of `(day, engineers)`
pairs in insertion order.  `_days_to_date` is an `Option` of a conversion
function. -/

/-- One scheduled task: the allocation items plus the optional
days-to-date conversion attached by `Plan.__init__`. -/
structure SchedTask where
  alloc : List (Nat × Nat)
  conv : Option (Nat → Nat)

/-- One step of the `start_day` loop (dsl.py lines 117-122):
`if (engineers > 0) and ((start_date is None) or (day < start_date))`. -/
def stepMin (acc : Option Nat) (de : Nat × Nat) : Option Nat :=
  if 0 < de.2 && (match acc with | none => true | some s => decide (de.1 < s))
  then some de.1 else acc

/-- One step of the `end_day` loop (dsl.py lines 124-129). -/
def stepMax (acc : Option Nat) (de : Nat × Nat) : Option Nat :=
  if 0 < de.2 && (match acc with | none => true | some s => decide (s < de.1))
  then some de.1 else acc

/-- `ScheduledTask.start_day`: least day with a positive engineer count,
`none` when there is none. -/
def startDay (items : List (Nat × Nat)) : Option Nat := items.foldl stepMin none

/-- `ScheduledTask.end_day`: greatest day with a positive engineer count. -/
def endDay (items : List (Nat × Nat)) : Option Nat := items.foldl stepMax none

/-- `ScheduledTask.start_date`: `None` without a conversion or without a
start day, otherwise the conversion applied to the start day. -/
def SchedTask.startDate (st : SchedTask) : Option Nat :=
  match st.conv with
  | none => none
  | some c =>
    match startDay st.alloc with
    | none => none
    | some d => some (c d)

/-- `ScheduledTask.end_date`. -/
def SchedTask.endDate (st : SchedTask) : Option Nat :=
  match st.conv with
  | none => none
  | some c =>
    match endDay st.alloc with
    | none => none
    | some d => some (c d)

/-- `ScheduledTask.date_engineer_allocation`: empty without a conversion,
otherwise the allocation items with days converted to calendar dates. -/
def SchedTask.dateAlloc (st : SchedTask) : List (Nat × Nat) :=
  match st.conv with
  | none => []
  | some c => st.alloc.map (fun de => (c de.1, de.2))

/-- A day with a positive engineer count among the items. -/
def PosMem (items : List (Nat × Nat)) (d : Nat) : Prop :=
  ∃ e, (d, e) ∈ items ∧ 0 < e

theorem stepMin_cases (acc : Option Nat) (de : Nat × Nat) :
    stepMin acc de = acc ∨ (0 < de.2 ∧ stepMin acc de = some de.1) := by
  unfold stepMin
  rcases acc with _ | s
  · by_cases hp : 0 < de.2
    · simp [hp]
    · simp [hp]
  · by_cases hp : 0 < de.2
    · by_cases hlt : de.1 < s
      · simp [hp, hlt]
      · simp [hp, hlt]
    · simp [hp]

theorem stepMax_cases (acc : Option Nat) (de : Nat × Nat) :
    stepMax acc de = acc ∨ (0 < de.2 ∧ stepMax acc de = some de.1) := by
  unfold stepMax
  rcases acc with _ | s
  · by_cases hp : 0 < de.2
    · simp [hp]
    · simp [hp]
  · by_cases hp : 0 < de.2
    · by_cases hlt : s < de.1
      · simp [hp, hlt]
      · simp [hp, hlt]
    · simp [hp]

theorem foldl_stepMin_mem : ∀ (items : List (Nat × Nat)) (acc : Option Nat)
    (m : Nat), items.foldl stepMin acc = some m →
    acc = some m ∨ PosMem items m := by
  intro items
  induction items with
  | nil => intro acc m h; exact Or.inl h
  | cons de t ih =>
    intro acc m h
    rcases ih (stepMin acc de) m h with h' | h'
    · rcases stepMin_cases acc de with hc | ⟨hp, hc⟩
      · exact Or.inl (hc ▸ h')
      · rw [hc] at h'
        refine Or.inr ⟨de.2, ?_, hp⟩
        cases h'; exact List.mem_cons_self _ _
    · obtain ⟨e, he, hpos⟩ := h'
      exact Or.inr ⟨e, List.mem_cons_of_mem _ he, hpos⟩

theorem foldl_stepMax_mem : ∀ (items : List (Nat × Nat)) (acc : Option Nat)
    (m : Nat), items.foldl stepMax acc = some m →
    acc = some m ∨ PosMem items m := by
  intro items
  induction items with
  | nil => intro acc m h; exact Or.inl h
  | cons de t ih =>
    intro acc m h
    rcases ih (stepMax acc de) m h with h' | h'
    · rcases stepMax_cases acc de with hc | ⟨hp, hc⟩
      · exact Or.inl (hc ▸ h')
      · rw [hc] at h'
        refine Or.inr ⟨de.2, ?_, hp⟩
        cases h'; exact List.mem_cons_self _ _
    · obtain ⟨e, he, hpos⟩ := h'
      exact Or.inr ⟨e, List.mem_cons_of_mem _ he, hpos⟩

theorem foldl_stepMin_isSome : ∀ (items : List (Nat × Nat)) (acc : Nat),
    ∃ m, items.foldl stepMin (some acc) = some m := by
  intro items
  induction items with
  | nil => intro acc; exact ⟨acc, rfl⟩
  | cons de t ih =>
    intro acc
    unfold List.foldl stepMin
    by_cases hc : (0 < de.2 && decide (de.1 < acc)) = true
    · simp only [hc, if_pos]; exact ih de.1
    · simp only [hc, if_neg, Bool.not_eq_true]
      exact ih acc

theorem foldl_stepMax_isSome : ∀ (items : List (Nat × Nat)) (acc : Nat),
    ∃ m, items.foldl stepMax (some acc) = some m := by
  intro items
  induction items with
  | nil => intro acc; exact ⟨acc, rfl⟩
  | cons de t ih =>
    intro acc
    unfold List.foldl stepMax
    by_cases hc : (0 < de.2 && decide (acc < de.1)) = true
    · simp only [hc, if_pos]; exact ih de.1
    · simp only [hc, if_neg, Bool.not_eq_true]
      exact ih acc

theorem startDay_isSome (items : List (Nat × Nat)) (d : Nat)
    (h : PosMem items d) : ∃ m, startDay items = some m := by
  unfold startDay
  obtain ⟨e, hmem, hpos⟩ := h
  induction items with
  | nil => cases hmem
  | cons de t ih =>
    rcases List.mem_cons.mp hmem with heq | hmem'
    · unfold List.foldl stepMin
      have : (0 < de.2 && true) = true := by
        subst heq; simp [hpos]
      simp only [this, if_pos]
      exact foldl_stepMin_isSome t de.1
    · unfold List.foldl
      rcases hEq : stepMin none de with _ | v
      · exact ih hmem'
      · exact foldl_stepMin_isSome t v

theorem endDay_isSome (items : List (Nat × Nat)) (d : Nat)
    (h : PosMem items d) : ∃ m, endDay items = some m := by
  unfold endDay
  obtain ⟨e, hmem, hpos⟩ := h
  induction items with
  | nil => cases hmem
  | cons de t ih =>
    rcases List.mem_cons.mp hmem with heq | hmem'
    · unfold List.foldl stepMax
      have : (0 < de.2 && true) = true := by
        subst heq; simp [hpos]
      simp only [this, if_pos]
      exact foldl_stepMax_isSome t de.1
    · unfold List.foldl
      rcases hEq : stepMax none de with _ | v
      · exact ih hmem'
      · exact foldl_stepMax_isSome t v

theorem startDay_mem (items : List (Nat × Nat)) (m : Nat)
    (h : startDay items = some m) : PosMem items m := by
  rcases foldl_stepMin_mem items none m h with h' | h'
  · cases h'
  · exact h'

theorem endDay_mem (items : List (Nat × Nat)) (m : Nat)
    (h : endDay items = some m) : PosMem items m := by
  rcases foldl_stepMax_mem items none m h with h' | h'
  · cases h'
  · exact h'

theorem startDay_none_of_all_zero : ∀ (items : List (Nat × Nat)),
    (∀ de ∈ items, de.2 = 0) → startDay items = none := by
  intro items h
  unfold startDay
  induction items with
  | nil => rfl
  | cons de t ih =>
    unfold List.foldl stepMin
    have hz : de.2 = 0 := h de (List.mem_cons_self _ _)
    have : (0 < de.2 &&
        (match (none : Option Nat) with
         | none => true | some s => decide (de.1 < s))) = false := by
      rw [hz]; simp
    rw [this]
    simp only [Bool.false_eq_true, if_neg, not_false_iff]
    exact ih fun de' hde' => h de' (List.mem_cons_of_mem _ hde')

theorem endDay_none_of_all_zero : ∀ (items : List (Nat × Nat)),
    (∀ de ∈ items, de.2 = 0) → endDay items = none := by
  intro items h
  unfold endDay
  induction items with
  | nil => rfl
  | cons de t ih =>
    unfold List.foldl stepMax
    have hz : de.2 = 0 := h de (List.mem_cons_self _ _)
    have : (0 < de.2 &&
        (match (none : Option Nat) with
         | none => true | some s => decide (s < de.1))) = false := by
      rw [hz]; simp
    rw [this]
    simp only [Bool.false_eq_true, if_neg, not_false_iff]
    exact ih fun de' hde' => h de' (List.mem_cons_of_mem _ hde')

/-! ## Plan (dsl.py lines 157-176) and errors -/

/-- The errors a scheduling call can surface.  `cycleDetected` is
`CircularDependencyError`; `noSolution` is the `ValueError("No solution
found")` of `CriticalPathScheduler.schedule`; `emptyMax` is the
`ValueError` Python's builtin `max` raises on the empty sequence in
`Plan.__init__` line 166. -/
inductive SchedErr where
  | cycleDetected
  | noSolution
  | emptyMax
  deriving DecidableEq, Repr

/-- The result of `Plan.__init__`: the scheduled tasks with the
days-to-date conversion attached, the project start date, and the
conversion itself. -/
structure Plan where
  tasks : List SchedTask
  start : Nat
  totalDays : Nat
  conv : Nat → Nat

/-- `Plan.__init__` (dsl.py lines 163-176).  `max(scheduled_task.end_day
or 0 for scheduled_task in scheduled_tasks)` raises `ValueError` on an
empty task list; otherwise the days-to-date table is built and attached
to every scheduled task. -/
def mkPlan (f : Nat → Bool) (hf : ∀ n, ∃ m, n < m ∧ f m = true)
    (scheduledTasks : List SchedTask) (start : Nat) : Except SchedErr Plan :=
  match scheduledTasks with
  | [] => .error .emptyMax
  | st :: rest =>
    let totalDays := (rest.map (fun s => (endDay s.alloc).getD 0)).foldl
      max ((endDay st.alloc).getD 0)
    let c := daysToDate f hf start
    .ok { tasks := (st :: rest).map (fun s => { s with conv := some c })
          start := start
          totalDays := totalDays
          conv := c }

/-! ## Task and Team validation (dsl.py lines 20-33, 44-51, 93-97)

`Task.__init__` rejects an empty name and a non-positive
parallelization factor, then `validate` rejects a non-positive effort
(and re-checks the parallelization factor); `Team.__init__` rejects a
non-positive size.  Efforts and factors are Python ints, modelled as
`Int`. -/

/-- `Task.__init__` followed by `Task.validate`, keeping only the
scheduling-relevant fields; returns the validated `(effort, pf)` pair. -/
def mkTask (name : String) (effort parallelizationFactor : Int) :
    Except String (Int × Int) :=
  if name = "" then .error "Task name must not be empty"
  else if parallelizationFactor ≤ 0 then
    .error "Parallelization factor must be a positive integer"
  else if effort ≤ 0 then .error "Effort must be a positive integer"
  else if parallelizationFactor ≤ 0 then
    .error "Parallelization factor must be a positive integer"
  else .ok (effort, parallelizationFactor)

/-- `Team.__init__`. -/
def mkTeam (name : String) (size : Int) : Except String (String × Int) :=
  if size ≤ 0 then .error "Team size must be a positive integer"
  else .ok (name, size)

/-! ## Task graph and constraint model builder
(`CriticalPathScheduler.schedule`, dsl.py lines 378-468)

Tasks are identified by their position `Fin n` in the input list (Python
identifies them by name; names are unique).  `deps i` lists the
dependencies of task `i`; as in the source, every dependency must itself
be a scheduled task (`plan_of[dependency]` raises `KeyError` otherwise),
so the input is closed under dependencies by construction. -/

/-- The scheduling-relevant data of a task list. -/
structure Proj where
  n : Nat
  eff : Fin n → Nat
  pf : Fin n → Nat
  deps : Fin n → List (Fin n)

/-- A chunk is identified by its task and its identifier `< effort`. -/
abbrev Chunk (n : Nat) := Fin n × Nat

/-- A solver assignment: each chunk's `day_of_work` value. -/
abbrev Assignment (n : Nat) := Chunk n → Nat

/-- One constraint of the cpmpy model. -/
inductive Constr (n : Nat) where
  /-- `chunk_a.day_of_work <= chunk_b.day_of_work` (intra-task order). -/
  | le (c₁ c₂ : Chunk n)
  /-- `dependent_chunk.day_of_work >= dependency_chunk.day_of_work + 1`. -/
  | ge1 (cDependent cDependency : Chunk n)
  /-- `dependent_chunk.day_of_work >= dependency_chunk.day_of_work - 1`. -/
  | geMirror (cDependent cDependency : Chunk n)
  /-- `cp.Count([...], day) <= bound`. -/
  | count (cs : List (Chunk n)) (day : Nat) (bound : Nat)
  deriving DecidableEq

/-- `chunks_by_task[i]`: chunk identifiers `0 .. effort-1` of task `i`. -/
def taskChunks (P : Proj) (i : Fin P.n) : List (Chunk P.n) :=
  (List.range (P.eff i)).map (fun j => (i, j))

/-- `all_chunks`, in task order. -/
def allChunks (P : Proj) : List (Chunk P.n) :=
  (List.finRange P.n).flatMap (taskChunks P)

/-- Intra-task monotonicity constraints (dsl.py lines 414-415):
`zip(task_chunks[:-1], task_chunks[1:])`. -/
def monoConstrs (P : Proj) : List (Constr P.n) :=
  (List.finRange P.n).flatMap (fun i =>
    (List.range (P.eff i - 1)).map (fun j => Constr.le (i, j) (i, j + 1)))

/-- `dependents_of[u]`: the tasks (in input order) that depend on `u`. -/
def dependentsOf (P : Proj) (u : Fin P.n) : List (Fin P.n) :=
  (List.finRange P.n).filter (fun v => decide (u ∈ P.deps v))

/-- Precedence constraints (dsl.py lines 418-425): for every dependency
edge and every chunk pair, the dependent chunk is at least one day after
the dependency chunk. -/
def precConstrs (P : Proj) : List (Constr P.n) :=
  (List.finRange P.n).flatMap (fun u =>
    (dependentsOf P u).flatMap (fun v =>
      (taskChunks P u).flatMap (fun cu =>
        (taskChunks P v).map (fun cv => Constr.ge1 cv cu))))

/-- Redundant mirrored precedence constraints (dsl.py lines 426-433). -/
def mirrorConstrs (P : Proj) : List (Constr P.n) :=
  (List.finRange P.n).flatMap (fun v =>
    (P.deps v).flatMap (fun u =>
      (taskChunks P v).flatMap (fun cv =>
        (taskChunks P u).map (fun cu => Constr.geMirror cv cu))))

/-- Per-task capacity constraints (dsl.py lines 436-441): for each task
and each `day in range(self.max_days)`, at most
`min(parallelization_factor, team.size)` chunks on that day. -/
def taskCapConstrs (P : Proj) (team maxDays : Nat) : List (Constr P.n) :=
  (List.finRange P.n).flatMap (fun i =>
    (List.range maxDays).map (fun d =>
      Constr.count (taskChunks P i) d (min (P.pf i) team)))

/-- Team capacity constraints (dsl.py lines 442-447): for each
`day in range(self.max_days)`, at most `team.size` chunks on that day. -/
def teamCapConstrs (P : Proj) (team maxDays : Nat) : List (Constr P.n) :=
  (List.range maxDays).map (fun d => Constr.count (allChunks P) d team)

/-- All constraints of the model, in emission order. -/
def buildModel (P : Proj) (team maxDays : Nat) : List (Constr P.n) :=
  monoConstrs P ++ precConstrs P ++ mirrorConstrs P ++
    taskCapConstrs P team maxDays ++ teamCapConstrs P team maxDays

/-- Truth of one constraint under an assignment. -/
def evalConstr (a : Assignment n) : Constr n → Bool
  | .le c₁ c₂ => decide (a c₁ ≤ a c₂)
  | .ge1 cV cU => decide (a cU + 1 ≤ a cV)
  | .geMirror cV cU => decide (a cU ≤ a cV + 1)
  | .count cs d b => decide (cs.countP (fun c => decide (a c = d)) ≤ b)

/-- The assignment satisfies every constraint of the model. -/
def satisfiesModel (model : List (Constr n)) (a : Assignment n) : Bool :=
  model.all (evalConstr a)

/-- Every chunk variable lies in its cpmpy domain
`intvar(lb=0, ub=self.max_days)` (bounds inclusive). -/
def inDomain (P : Proj) (maxDays : Nat) (a : Assignment P.n) : Bool :=
  (List.finRange P.n).all (fun i =>
    (List.range (P.eff i)).all (fun j => decide (a (i, j) ≤ maxDays)))

/-! ## Plan materialization (dsl.py lines 466-468)

`chunk.task.daily_engineer_allocation[int(chunk.day_of_work.value())] += 1`
over all chunks, i.e. a fold of defaultdict increments in chunk order. -/

/-- One `defaultdict(int)` increment at key `d`. -/
def bump (items : List (Nat × Nat)) (d : Nat) : List (Nat × Nat) :=
  match items with
  | [] => [(d, 1)]
  | (d', e) :: rest =>
    if d' = d then (d', e + 1) :: rest else (d', e) :: bump rest d

/-- The day values of task `i`'s chunks, in chunk order. -/
def dayList (P : Proj) (a : Assignment P.n) (i : Fin P.n) : List Nat :=
  (List.range (P.eff i)).map (fun j => a (i, j))

/-- `daily_engineer_allocation` of task `i` after materialization. -/
def allocItems (P : Proj) (a : Assignment P.n) (i : Fin P.n) :
    List (Nat × Nat) :=
  (dayList P a i).foldl bump []

/-- The engineer count recorded for day `d`. -/
def lookupCount (items : List (Nat × Nat)) (d : Nat) : Nat :=
  items.foldl (fun acc de => if de.1 = d then acc + de.2 else acc) 0

/-! ## Cycle detection (`Scheduler.has_circular_dependencies`,
dsl.py lines 288-318)

Depth-first traversal from each task with an ancestors set (current
path) and a shared visited set, both modelled as lists.  The Python
recursion terminates because the task graph is finite; here the nesting
depth is bounded by a fuel argument, `Fintype.card V + 1` at the top
level, which the proofs show is never exhausted. -/

section Dfs

variable {V : Type} [DecidableEq V]

/-- The `for dep in task.dependencies` loop of `dfs`: run `f` on each
element, threading the shared visited set, returning `true` as soon as
one call does. -/
def runList (f : List V → V → Bool × List V) :
    List V → List V → Bool × List V
  | vis, [] => (false, vis)
  | vis, w :: ws =>
    match f vis w with
    | (true, vis') => (true, vis')
    | (false, vis') => runList f vis' ws

/-- The inner `dfs(task, ancestors)` of `has_circular_dependencies`. -/
def dfs (adj : V → List V) : Nat → List V → List V → V → Bool × List V
  | 0, _, vis, _ => (false, vis)
  | fuel + 1, anc, vis, u =>
    if u ∈ anc then (true, vis)
    else if u ∈ vis then (false, vis)
    else runList (fun vis' w => dfs adj fuel (u :: anc) vis' w)
      (u :: vis) (adj u)

/-- The `for task in tasks: if dfs(task, set())` loop, with the visited
set shared across iterations. -/
def hasCircularAux (adj : V → List V) (fuel : Nat) (vis : List V) :
    List V → Bool
  | [] => false
  | t :: ts =>
    match dfs adj fuel [] vis t with
    | (true, _) => true
    | (false, vis') => hasCircularAux adj fuel vis' ts

/-- `Scheduler.has_circular_dependencies`. -/
def hasCircularDependencies [Fintype V] (adj : V → List V)
    (tasks : List V) : Bool :=
  hasCircularAux adj (Fintype.card V + 1) [] tasks

end Dfs

/-- `CriticalPathScheduler.schedule` (dsl.py lines 378-468).  The cpmpy
backend is external to the repository and is abstracted as `solve`; a
sound backend returns `some a` for a satisfiable model (with `a`
satisfying it) and `none` exactly when the model is infeasible. -/
def schedule (P : Proj)
    (solve : List (Constr P.n) → Option (Assignment P.n))
    (team maxDays start : Nat) (f : Nat → Bool)
    (hf : ∀ n, ∃ m, n < m ∧ f m = true) : Except SchedErr Plan :=
  if hasCircularDependencies P.deps (List.finRange P.n) then
    .error .cycleDetected
  else
    match solve (buildModel P team maxDays) with
    | none => .error .noSolution
    | some a =>
      mkPlan f hf
        ((List.finRange P.n).map (fun i => ⟨allocItems P a i, none⟩)) start

/-! ## Properties of the materialized allocations -/

theorem posMem_cons (d' e x : Nat) (t : List (Nat × Nat)) :
    PosMem ((d', e) :: t) x ↔ (x = d' ∧ 0 < e) ∨ PosMem t x := by
  unfold PosMem
  constructor
  · rintro ⟨e', he', hpos⟩
    rcases List.mem_cons.mp he' with heq | hmem
    · obtain ⟨h1, h2⟩ := Prod.mk.injEq .. ▸ heq
      exact Or.inl ⟨h1, h2 ▸ hpos⟩
    · exact Or.inr ⟨e', hmem, hpos⟩
  · rintro (⟨h1, h2⟩ | ⟨e', hmem, hpos⟩)
    · exact ⟨e, h1 ▸ List.mem_cons_self _ _, h2⟩
    · exact ⟨e', List.mem_cons_of_mem _ hmem, hpos⟩

theorem posMem_bump (items : List (Nat × Nat)) (d x : Nat) :
    PosMem (bump items d) x ↔ x = d ∨ PosMem items x := by
  induction items with
  | nil =>
    unfold bump
    rw [posMem_cons]
    simp [PosMem]
  | cons hd t ih =>
    obtain ⟨d', e⟩ := hd
    unfold bump
    by_cases hdd : d' = d
    · rw [if_pos hdd, posMem_cons, posMem_cons]
      subst hdd
      constructor
      · rintro (⟨h1, _⟩ | h) <;> [exact Or.inl h1; exact Or.inr (Or.inr h)]
      · rintro (h | ⟨h1, _⟩ | h)
        · exact Or.inl ⟨h, Nat.succ_pos e⟩
        · exact Or.inl ⟨h1, Nat.succ_pos e⟩
        · exact Or.inr h
    · rw [if_neg hdd, posMem_cons, posMem_cons, ih]
      tauto

theorem posMem_foldl_bump : ∀ (l : List Nat) (init : List (Nat × Nat))
    (x : Nat), PosMem (l.foldl bump init) x ↔ x ∈ l ∨ PosMem init x := by
  intro l
  induction l with
  | nil => intro init x; simp
  | cons h t ih =>
    intro init x
    rw [List.foldl_cons, ih, posMem_bump, List.mem_cons]
    tauto

/-- The days with positive allocation of task `i` are exactly the values
the solver assigned to its chunks. -/
theorem posMem_allocItems (P : Proj) (a : Assignment P.n) (i : Fin P.n)
    (x : Nat) :
    PosMem (allocItems P a i) x ↔ ∃ j, j < P.eff i ∧ a (i, j) = x := by
  unfold allocItems dayList
  rw [posMem_foldl_bump]
  simp [PosMem]

/-! ## Membership in the emitted constraint list -/

theorem eval_of_satisfies {n : Nat} {model : List (Constr n)}
    {a : Assignment n} (h : satisfiesModel model a = true) {c : Constr n}
    (hc : c ∈ model) : evalConstr a c = true :=
  List.all_eq_true.mp h c hc

theorem ge1_mem_precConstrs (P : Proj) {u v : Fin P.n} (hu : u ∈ P.deps v)
    {ju jv : Nat} (hju : ju < P.eff u) (hjv : jv < P.eff v) :
    Constr.ge1 (v, jv) (u, ju) ∈ precConstrs P := by
  unfold precConstrs dependentsOf taskChunks
  simp only [List.mem_flatMap, List.mem_map, List.mem_filter,
    List.mem_range, List.mem_finRange, decide_eq_true_eq]
  exact ⟨u, trivial, v, ⟨trivial, hu⟩, (u, ju), ⟨ju, hju, rfl⟩,
    (v, jv), ⟨jv, hjv, rfl⟩, rfl⟩

theorem ge1_mem_buildModel (P : Proj) (team maxDays : Nat) {u v : Fin P.n}
    (hu : u ∈ P.deps v) {ju jv : Nat} (hju : ju < P.eff u)
    (hjv : jv < P.eff v) :
    Constr.ge1 (v, jv) (u, ju) ∈ buildModel P team maxDays := by
  unfold buildModel
  exact List.mem_append_left _ (List.mem_append_left _ (List.mem_append_left _
    (List.mem_append_right _ (ge1_mem_precConstrs P hu hju hjv))))

/-- The chunk-level consequence of the emitted precedence constraints:
under any satisfying assignment, every chunk of a dependent task is
scheduled at least one day after every chunk of each of its
dependencies. -/
theorem chunk_precedence (P : Proj) (team maxDays : Nat)
    (a : Assignment P.n)
    (hsat : satisfiesModel (buildModel P team maxDays) a = true)
    {u v : Fin P.n} (hu : u ∈ P.deps v) {ju jv : Nat}
    (hju : ju < P.eff u) (hjv : jv < P.eff v) :
    a (u, ju) + 1 ≤ a (v, jv) := by
  have h := eval_of_satisfies hsat (ge1_mem_buildModel P team maxDays hu hju hjv)
  unfold evalConstr at h
  exact of_decide_eq_true h

/-! ## Claim theorems -/

/-- C9: the Task constructor fails exactly when the name is empty, the
effort is non-positive, or the parallelization factor is non-positive,
and the Team constructor fails exactly when the size is non-positive.
The checks run in `__init__` itself (`Task.validate` is called from the
constructor), so the error is raised at construction and no scheduling is
attempted. -/
theorem task_team_validation (name : String) (effort pf size : Int) :
    ((mkTask name effort pf).isOk = true ↔ name ≠ "" ∧ 0 < effort ∧ 0 < pf) ∧
    ((mkTeam name size).isOk = true ↔ 0 < size) := by
  constructor
  · unfold mkTask
    by_cases h1 : name = "" <;> by_cases h2 : pf ≤ 0 <;>
      by_cases h3 : effort ≤ 0 <;>
      (simp [h1, h2, h3, Except.isOk, Except.toBool]; try omega)
  · unfold mkTeam
    by_cases h : size ≤ 0 <;> (simp [h, Except.isOk, Except.toBool]; try omega)

/-- Witness for C9 at a concrete valid input. -/
theorem task_team_validation_witness :
    (mkTask "a" 1 1).isOk = true ∧ (mkTeam "a" 1).isOk = true :=
  ⟨(task_team_validation "a" 1 1 1).1.mpr (by decide),
   (task_team_validation "a" 1 1 1).2.mpr (by decide)⟩

/-- C10: a ScheduledTask whose allocation has no positive engineer count
has `start_day = end_day = None`; without an attached conversion the
start and end dates are `None` and the date allocation is empty; a `None`
day gives a `None` date.  All four properties are total functions of the
embedded state, so no exception is raised. -/
theorem scheduled_task_empty_behavior (st : SchedTask) :
    ((∀ de ∈ st.alloc, de.2 = 0) →
      startDay st.alloc = none ∧ endDay st.alloc = none) ∧
    (st.conv = none →
      st.startDate = none ∧ st.endDate = none ∧ st.dateAlloc = []) ∧
    (startDay st.alloc = none → st.startDate = none) ∧
    (endDay st.alloc = none → st.endDate = none) := by
  refine ⟨fun h => ⟨startDay_none_of_all_zero _ h,
    endDay_none_of_all_zero _ h⟩, ?_, ?_, ?_⟩
  · intro h
    unfold SchedTask.startDate SchedTask.endDate SchedTask.dateAlloc
    rw [h]
    exact ⟨rfl, rfl, rfl⟩
  · intro h
    unfold SchedTask.startDate
    rw [h]
    rcases st.conv with _ | c <;> rfl
  · intro h
    unfold SchedTask.endDate
    rw [h]
    rcases st.conv with _ | c <;> rfl

/-- Witness for C10 at the concrete task with one zero-count day and no
conversion attached. -/
theorem scheduled_task_empty_behavior_witness :
    (startDay [((3 : Nat), (0 : Nat))] = none ∧
      endDay [((3 : Nat), (0 : Nat))] = none) ∧
    (SchedTask.mk [(3, 0)] none).startDate = none ∧
    (SchedTask.mk [(3, 0)] none).endDate = none ∧
    (SchedTask.mk [(3, 0)] none).dateAlloc = [] :=
  ⟨(scheduled_task_empty_behavior ⟨[(3, 0)], none⟩).1 (by decide),
   (scheduled_task_empty_behavior ⟨[(3, 0)], none⟩).2.1 rfl⟩

/-- C7: `days_to_date` maps index 0 to the start date itself; each
successor index is mapped to the first calendar date strictly after the
previous one that satisfies the workday predicate (so exactly the
non-workdays between them are skipped); the sequence is strictly
increasing.  The hypothesis `hf` is the spec's precondition that workdays
never run out. -/
theorem days_to_date_spec (f : Nat → Bool)
    (hf : ∀ n, ∃ m, n < m ∧ f m = true) (start : Nat) :
    daysToDate f hf start 0 = start ∧
    (∀ d, daysToDate f hf start d < daysToDate f hf start (d + 1) ∧
      f (daysToDate f hf start (d + 1)) = true ∧
      ∀ x, daysToDate f hf start d < x → x < daysToDate f hf start (d + 1) →
        f x = false) ∧
    StrictMono (daysToDate f hf start) :=
  ⟨rfl,
   fun _d => ⟨lt_nextWork f hf _, nextWork_isWorkday f hf _,
     fun x h1 h2 => nextWork_min f hf _ x h1 h2⟩,
   daysToDate_strictMono f hf start⟩

/-- Witness for C7 at the default Mon-Fri filter and start date 0. -/
theorem days_to_date_spec_witness :
    daysToDate defaultWorkday defaultWorkday_inf 0 0 = 0 ∧
    (∀ d, daysToDate defaultWorkday defaultWorkday_inf 0 d <
        daysToDate defaultWorkday defaultWorkday_inf 0 (d + 1) ∧
      defaultWorkday (daysToDate defaultWorkday defaultWorkday_inf 0 (d + 1)) =
        true ∧
      ∀ x, daysToDate defaultWorkday defaultWorkday_inf 0 d < x →
        x < daysToDate defaultWorkday defaultWorkday_inf 0 (d + 1) →
        defaultWorkday x = false) ∧
    StrictMono (daysToDate defaultWorkday defaultWorkday_inf 0) :=
  days_to_date_spec defaultWorkday defaultWorkday_inf 0

/-- C5: under any assignment satisfying the emitted model, for every
dependency edge U -> V every chunk of V is scheduled at least one day
after every chunk of U, and consequently the start day of V's allocation
is strictly greater than the end day of U's allocation (both exist when
the efforts are positive, as `Task.validate` guarantees). -/
theorem precedence_strictly_ahead (P : Proj) (team maxDays : Nat)
    (a : Assignment P.n)
    (hsat : satisfiesModel (buildModel P team maxDays) a = true)
    (u v : Fin P.n) (hu : u ∈ P.deps v)
    (heffu : 0 < P.eff u) (heffv : 0 < P.eff v) :
    (∀ ju, ju < P.eff u → ∀ jv, jv < P.eff v →
      a (u, ju) + 1 ≤ a (v, jv)) ∧
    ∃ sv eu, startDay (allocItems P a v) = some sv ∧
      endDay (allocItems P a u) = some eu ∧ eu < sv := by
  refine ⟨fun ju hju jv hjv =>
    chunk_precedence P team maxDays a hsat hu hju hjv, ?_⟩
  have hposv : PosMem (allocItems P a v) (a (v, 0)) :=
    (posMem_allocItems P a v _).mpr ⟨0, heffv, rfl⟩
  have hposu : PosMem (allocItems P a u) (a (u, 0)) :=
    (posMem_allocItems P a u _).mpr ⟨0, heffu, rfl⟩
  obtain ⟨sv, hsv⟩ := startDay_isSome _ _ hposv
  obtain ⟨eu, heu⟩ := endDay_isSome _ _ hposu
  obtain ⟨jv, hjv, hjv'⟩ := (posMem_allocItems P a v sv).mp (startDay_mem _ _ hsv)
  obtain ⟨ju, hju, hju'⟩ := (posMem_allocItems P a u eu).mp (endDay_mem _ _ heu)
  have hlt := chunk_precedence P team maxDays a hsat hu hju hjv
  exact ⟨sv, eu, hsv, heu, by omega⟩

/-- Two tasks, task 1 depending on task 0, each of effort 1. -/
def twoTaskProj : Proj :=
  ⟨2, fun _ => 1, fun _ => 1, fun i => if i = 1 then [0] else []⟩

/-- Witness for C5: the assignment putting task 0 on day 0 and task 1 on
day 1 satisfies the model for a team of 1 and `max_days = 2`, and the
claimed conclusions hold there. -/
theorem precedence_strictly_ahead_witness :
    satisfiesModel (buildModel twoTaskProj 1 2) (fun c => c.1.val) = true ∧
    ((∀ ju, ju < twoTaskProj.eff ⟨0, by decide⟩ →
        ∀ jv, jv < twoTaskProj.eff ⟨1, by decide⟩ →
        (fun (c : Chunk 2) => c.1.val) (⟨0, by decide⟩, ju) + 1 ≤
          (fun (c : Chunk 2) => c.1.val) (⟨1, by decide⟩, jv)) ∧
      ∃ sv eu,
        startDay (allocItems twoTaskProj (fun c => c.1.val) ⟨1, by decide⟩) =
          some sv ∧
        endDay (allocItems twoTaskProj (fun c => c.1.val) ⟨0, by decide⟩) =
          some eu ∧
        eu < sv) :=
  ⟨by decide,
   precedence_strictly_ahead twoTaskProj 1 2 (fun c => c.1.val) (by decide)
     ⟨0, by decide⟩ ⟨1, by decide⟩ (by decide) (by decide) (by decide)⟩

/-- C3 (amended): for every Plan built by `Plan.__init__`, each scheduled
task's start and end dates are the days-to-date conversion of its start
and end days — unconditionally, workday start or not.  Every calendar
date in any date allocation is either the start date itself (the image
of working-day index 0, workday or not) or satisfies the workday
predicate; hence, provided the project start date itself satisfies the
predicate, every such date satisfies it. -/
theorem plan_dates_workdays (f : Nat → Bool)
    (hf : ∀ n, ∃ m, n < m ∧ f m = true) (sts : List SchedTask)
    (start : Nat) (p : Plan) (hp : mkPlan f hf sts start = .ok p) :
    ∀ st ∈ p.tasks,
      st.startDate = (startDay st.alloc).map (daysToDate f hf start) ∧
      st.endDate = (endDay st.alloc).map (daysToDate f hf start) ∧
      (∀ de ∈ st.dateAlloc, de.1 = start ∨ f de.1 = true) ∧
      (f start = true → ∀ de ∈ st.dateAlloc, f de.1 = true) := by
  rcases sts with _ | ⟨st0, rest⟩
  · exact absurd hp (by simp [mkPlan])
  · unfold mkPlan at hp
    have hp' := Except.ok.inj hp
    subst hp'
    intro st hmem
    obtain ⟨s, _, rfl⟩ := List.mem_map.mp hmem
    refine ⟨?_, ?_, ?_, ?_⟩
    · unfold SchedTask.startDate
      rcases h : startDay s.alloc with _ | d <;> simp [h]
    · unfold SchedTask.endDate
      rcases h : endDay s.alloc with _ | d <;> simp [h]
    · intro de hde
      unfold SchedTask.dateAlloc at hde
      obtain ⟨⟨d, e⟩, _, rfl⟩ := List.mem_map.mp hde
      rcases d with _ | d'
      · exact Or.inl rfl
      · exact Or.inr (daysToDate_succ_workday f hf start d')
    · intro hstart de hde
      unfold SchedTask.dateAlloc at hde
      obtain ⟨⟨d, e⟩, _, rfl⟩ := List.mem_map.mp hde
      rcases d with _ | d'
      · exact hstart
      · exact daysToDate_succ_workday f hf start d'

/-- A single task of effort 1 with no dependencies. -/
def singleTaskProj : Proj := ⟨1, fun _ => 1, fun _ => 1, fun _ => []⟩

/-- The day-0 assignment for the single-task project (its unique optimum:
any later day only adds time and procrastination cost). -/
def dayZeroAssign : Assignment 1 := fun _ => 0

/-- A solver returning the day-0 assignment. -/
def dayZeroSolve : List (Constr 1) → Option (Assignment 1) :=
  fun _ => some dayZeroAssign

/-- C3 counterexample: scheduling the single effort-1 task from start
date 5 — a Saturday under the default Mon-Fri filter, `defaultWorkday 5 =
false` — returns a Plan whose `date_engineer_allocation` contains the
calendar date 5, which does not satisfy the workday predicate.  The
day-0 assignment satisfies every emitted constraint and stays in domain,
so it is a plan the scheduler can produce; the claim's clause covering
projects whose start date is not a workday is therefore false on the
code (day 0 maps to `start_date` unconditionally). -/
theorem plan_workday_counterexample :
    schedule singleTaskProj dayZeroSolve 1 5 5 defaultWorkday
        defaultWorkday_inf =
      .ok { tasks := [⟨[(0, 1)],
              some (daysToDate defaultWorkday defaultWorkday_inf 5)⟩],
            start := 5, totalDays := 0,
            conv := daysToDate defaultWorkday defaultWorkday_inf 5 } ∧
    SchedTask.dateAlloc
        ⟨[(0, 1)], some (daysToDate defaultWorkday defaultWorkday_inf 5)⟩ =
      [(5, 1)] ∧
    defaultWorkday 5 = false ∧
    satisfiesModel (buildModel singleTaskProj 1 5) dayZeroAssign = true ∧
    inDomain singleTaskProj 5 dayZeroAssign = true :=
  ⟨rfl, rfl, rfl, by decide, by decide⟩

/-- Witness for C3 (amended) at the default filter, start date 0 (a
Monday), and the single allocation item `(0, 1)`. -/
theorem plan_dates_workdays_witness :
    ∃ p, mkPlan defaultWorkday defaultWorkday_inf
        [⟨[(0, 1)], none⟩] 0 = .ok p ∧
      ∀ st ∈ p.tasks,
        st.startDate =
          (startDay st.alloc).map
            (daysToDate defaultWorkday defaultWorkday_inf 0) ∧
        st.endDate =
          (endDay st.alloc).map
            (daysToDate defaultWorkday defaultWorkday_inf 0) ∧
        (∀ de ∈ st.dateAlloc, de.1 = 0 ∨ defaultWorkday de.1 = true) ∧
        (defaultWorkday 0 = true →
          ∀ de ∈ st.dateAlloc, defaultWorkday de.1 = true) :=
  ⟨_, rfl, plan_dates_workdays defaultWorkday defaultWorkday_inf
    [⟨[(0, 1)], none⟩] 0 _ rfl⟩

/-! ## The objective function (dsl.py lines 448-462) -/

/-- `cp.Maximum` of a list of day values: defined only on a non-empty
list (the cpmpy expression is not meaningful on an empty one). -/
def maxL : List Nat → Option Nat
  | [] => none
  | x :: t =>
    some (match maxL t with
      | none => x
      | some m => max x m)

/-- `cp.Minimum` of a list of day values. -/
def minL : List Nat → Option Nat
  | [] => none
  | x :: t =>
    some (match minL t with
      | none => x
      | some m => min x m)

/-- `Task.optimistic_task_duration` (dsl.py lines 71-82):
`effort // min(max_available_engineers, parallelization_factor)`. -/
def optimisticTaskDuration (effort pf maxAvailableEngineers : Nat) : Nat :=
  effort / min maxAvailableEngineers pf

/-- The day values of all chunks, in `all_chunks` order. -/
def allDayList (P : Proj) (a : Assignment P.n) : List Nat :=
  (List.finRange P.n).flatMap (dayList P a)

/-- One task's contribution to the context-switching cost (dsl.py lines
451-458): `cost_of_context * (Maximum(days) - Minimum(days) -
optimistic_task_duration(team.size))`, an integer that may be negative. -/
def ctxTerm (P : Proj) (team : Nat) (costOfContext : Int)
    (a : Assignment P.n) (i : Fin P.n) : Option Int :=
  match maxL (dayList P a i), minL (dayList P a i) with
  | some mx, some mn =>
    some (costOfContext * ((mx : Int) - (mn : Int) -
      (optimisticTaskDuration (P.eff i) (P.pf i) team : Int)))
  | _, _ => none

/-- Folding `cost_function += term` over a list of optional terms. -/
def addTerms (init : Int) : List (Option Int) → Option Int
  | [] => some init
  | none :: _ => none
  | some x :: t => addTerms (init + x) t

/-- The cost function as the source builds it: start from
`cost_of_time * Maximum(all chunk days)`, add each task's context term,
then add `cost_of_procastination * chunk.day_of_work` for every chunk. -/
def sourceObjective (P : Proj) (team : Nat)
    (costOfTime costOfContext costOfProcrastination : Int)
    (a : Assignment P.n) : Option Int :=
  match maxL (allDayList P a) with
  | none => none
  | some m =>
    match addTerms (costOfTime * (m : Int))
        ((List.finRange P.n).map (ctxTerm P team costOfContext a)) with
    | none => none
    | some withCtx =>
      some ((allDayList P a).foldl
        (fun acc (d : Nat) => acc + costOfProcrastination * (d : Int)) withCtx)

/-- Collect a list of optional values, `none` if any is `none`. -/
def collectTerms : List (Option Int) → Option (List Int)
  | [] => some []
  | none :: _ => none
  | some x :: t => (collectTerms t).map (fun xs => x :: xs)

/-- The objective exactly as the claim words it: `cost_of_time` times the
maximum chunk day, plus for each task `cost_of_context * (max - min -
effort // min(team.size, parallelization_factor))` with integer floor
division and the sign preserved, plus `cost_of_procrastination` times the
sum of all chunk days. -/
def specObjective (P : Proj) (team : Nat)
    (costOfTime costOfContext costOfProcrastination : Int)
    (a : Assignment P.n) : Option Int :=
  match maxL (allDayList P a) with
  | none => none
  | some m =>
    match collectTerms ((List.finRange P.n).map (fun i =>
        match maxL (dayList P a i), minL (dayList P a i) with
        | some mx, some mn =>
          some (costOfContext * ((mx : Int) - (mn : Int) -
            ((P.eff i / min team (P.pf i) : Nat) : Int)))
        | _, _ => none)) with
    | none => none
    | some ctxs =>
      some (costOfTime * (m : Int) + ctxs.sum +
        costOfProcrastination *
          ((allDayList P a).map (fun (d : Nat) => (d : Int))).sum)

theorem addTerms_eq_collectTerms : ∀ (l : List (Option Int)) (init : Int),
    addTerms init l = (collectTerms l).map (fun xs => init + xs.sum) := by
  intro l
  induction l with
  | nil => intro init; simp [addTerms, collectTerms]
  | cons o t ih =>
    intro init
    rcases o with _ | x
    · rfl
    · rcases h : collectTerms t with _ | xs
      · simp [addTerms, collectTerms, ih, h]
      · simp only [addTerms, collectTerms, ih, h, Option.map_some',
          Option.some.injEq, List.sum_cons]
        ring

theorem foldl_add_mul (cP : Int) : ∀ (l : List Nat) (init : Int),
    l.foldl (fun acc (d : Nat) => acc + cP * (d : Int)) init =
      init + cP * (l.map (fun (d : Nat) => (d : Int))).sum := by
  intro l
  induction l with
  | nil => intro init; simp
  | cons x t ih =>
    intro init
    rw [List.foldl_cons, ih]
    simp only [List.map_cons, List.sum_cons]
    ring

/-- C6: the objective handed to `m.minimize` equals `cost_of_time` times
the maximum over all chunk days, plus for each task `cost_of_context *
(max(days in T) - min(days in T) - effort(T) // min(team.size,
parallelization_factor(T)))` — integer floor division, the whole term
signed and possibly negative — plus `cost_of_procrastination` times the
sum of all chunk days.  Stated as equality of the incrementally built
source cost function and the spec's closed three-term formula, for every
input and assignment. -/
theorem objective_matches_spec (P : Proj) (team : Nat)
    (costOfTime costOfContext costOfProcrastination : Int)
    (a : Assignment P.n) :
    sourceObjective P team costOfTime costOfContext costOfProcrastination a =
      specObjective P team costOfTime costOfContext costOfProcrastination a := by
  unfold sourceObjective specObjective
  have hterm : ctxTerm P team costOfContext a = (fun i =>
      match maxL (dayList P a i), minL (dayList P a i) with
      | some mx, some mn =>
        some (costOfContext * ((mx : Int) - (mn : Int) -
          ((P.eff i / min team (P.pf i) : Nat) : Int)))
      | _, _ => none) := by
    funext i
    unfold ctxTerm optimisticTaskDuration
    rfl
  rw [← hterm]
  rcases hm : maxL (allDayList P a) with _ | m <;> simp only [hm]
  rw [addTerms_eq_collectTerms]
  rcases hc : collectTerms ((List.finRange P.n).map
      (ctxTerm P team costOfContext a)) with _ | xs
  · simp [hc]
  · simp only [hc, Option.map_some']
    rw [foldl_add_mul]

/-! ## The capacity off-by-one (claims C1 and C2)

The chunk variables have the inclusive domain `[0, max_days]`
(`cp.intvar(lb=0, ub=self.max_days)`), yet both capacity families loop
over `range(self.max_days)`, i.e. days `0 .. max_days - 1`: the day
`max_days` carries no capacity constraint at all. -/

/-- A single task of effort 2 and parallelization factor 2. -/
def overCapProj : Proj := ⟨1, fun _ => 2, fun _ => 2, fun _ => []⟩

/-- C1 (code bug): with `max_days = 0` and a team of size 1, every
in-domain assignment is forced onto day 0, satisfies the entire emitted
model — which contains no Count constraint whatsoever, since both
capacity loops run over `range(0)` — and allocates 2 engineers to day 0,
exceeding both `min(parallelization_factor, team.size) = 1` and
`team.size = 1` on a day inside `[0, max_days]`. -/
theorem capacity_day_bound_bug (a : Assignment 1)
    (ha : inDomain overCapProj 0 a = true) :
    satisfiesModel (buildModel overCapProj 1 0) a = true ∧
    lookupCount (allocItems overCapProj a ⟨0, Nat.one_pos⟩) 0 = 2 ∧
    (buildModel overCapProj 1 0).all
      (fun c => match c with
        | Constr.count _ _ _ => false
        | _ => true) = true := by
  have hall : ∀ (i : Fin 1) (j : Nat), j < 2 → a (i, j) = 0 := by
    simp only [inDomain, List.all_eq_true, List.mem_finRange, List.mem_range,
      decide_eq_true_eq, forall_const, overCapProj] at ha
    intro i j hj
    have := ha i j hj
    omega
  have hmodel : buildModel overCapProj 1 0 =
      [Constr.le (⟨0, Nat.one_pos⟩, 0) (⟨0, Nat.one_pos⟩, 1)] := by decide
  refine ⟨?_, ?_, by decide⟩
  · rw [hmodel]
    simp only [satisfiesModel, List.all_cons, List.all_nil, Bool.and_true,
      evalConstr]
    rw [hall ⟨0, Nat.one_pos⟩ 0 (by omega), hall ⟨0, Nat.one_pos⟩ 1 (by omega)]
    decide
  · have hd : dayList overCapProj a ⟨0, Nat.one_pos⟩ =
        [a (⟨0, Nat.one_pos⟩, 0), a (⟨0, Nat.one_pos⟩, 1)] := rfl
    unfold allocItems
    rw [hd, hall ⟨0, Nat.one_pos⟩ 0 (by omega), hall ⟨0, Nat.one_pos⟩ 1 (by omega)]
    decide

/-- Witness for C1 at the all-zero assignment. -/
theorem capacity_day_bound_bug_witness :
    inDomain overCapProj 0 (fun _ => 0) = true ∧
    (satisfiesModel (buildModel overCapProj 1 0) (fun _ => 0) = true ∧
      lookupCount (allocItems overCapProj (fun _ => 0) ⟨0, Nat.one_pos⟩) 0 =
        2 ∧
      (buildModel overCapProj 1 0).all
        (fun c => match c with
          | Constr.count _ _ _ => false
          | _ => true) = true) :=
  ⟨by decide, capacity_day_bound_bug (fun _ => 0) (by decide)⟩

/-- The single task of spec scenario S6: effort 5, parallelization
factor 1. -/
def horizonProj : Proj := ⟨1, fun _ => 5, fun _ => 1, fun _ => []⟩

/-- The assignment placing the five chunks on days 0, 1, 2, 3, 3. -/
def horizonAssign : Assignment 1 := fun c => min c.2 3

/-- A solver returning `horizonAssign`. -/
def horizonSolve : List (Constr 1) → Option (Assignment 1) :=
  fun _ => some horizonAssign

/-- C2 (code bug): the spec's scenario S6 — one task of effort 5,
parallelization factor 1, team size 1, `max_days = 3` — is satisfiable
in the emitted model, because day 3 (= max_days, inside the variables'
domain) carries no capacity constraint: days 0, 1, 2, 3, 3 satisfy every
constraint, put two engineer-days on day 3, and `schedule` therefore
returns a Plan instead of raising Infeasible. -/
theorem horizon_infeasibility_bug :
    satisfiesModel (buildModel horizonProj 1 3) horizonAssign = true ∧
    inDomain horizonProj 3 horizonAssign = true ∧
    lookupCount (allocItems horizonProj horizonAssign ⟨0, Nat.one_pos⟩) 3 =
      2 ∧
    (schedule horizonProj horizonSolve 1 3 0 defaultWorkday
      defaultWorkday_inf).isOk = true :=
  ⟨by decide, by decide, by decide, by decide⟩

/-- The empty task list. -/
def emptyProj : Proj := ⟨0, fun i => i.elim0, fun i => i.elim0,
  fun i => i.elim0⟩

/-- C4 (code bug): scheduling the empty task list never returns a Plan.
The cycle check passes and the solver is reached (it *is* invoked,
against the claim), but whatever it answers, the run ends in an error:
`None` from the solver raises "No solution found", and a successful
solve reaches `Plan.__init__`, whose `max()` over the empty
scheduled-task sequence raises `ValueError`. -/
theorem empty_tasks_no_plan (solve : List (Constr 0) → Option (Assignment 0))
    (team maxDays start : Nat) (f : Nat → Bool)
    (hf : ∀ n, ∃ m, n < m ∧ f m = true) :
    ∃ e, schedule emptyProj solve team maxDays start f hf =
      .error e := by
  unfold schedule
  have hcyc : hasCircularDependencies emptyProj.deps
      (List.finRange emptyProj.n) = false := by decide
  rw [hcyc]
  simp only [Bool.false_eq_true, if_false]
  rcases h : solve (buildModel emptyProj team maxDays) with _ | a
  · exact ⟨.noSolution, rfl⟩
  · exact ⟨.emptyMax, rfl⟩

/-- Witness for C4 at a concrete solver and calendar. -/
theorem empty_tasks_no_plan_witness :
    ∃ e, schedule emptyProj (fun _ => none) 1 100 0 defaultWorkday
      defaultWorkday_inf = .error e :=
  empty_tasks_no_plan (fun _ => none) 1 100 0 defaultWorkday
    defaultWorkday_inf

/-! ## Correctness of the depth-first cycle detection (claim C8) -/

section DfsProofs

variable {V : Type} [DecidableEq V]

/-- One dependency edge: `y` is among the dependencies of `x`. -/
def Step (adj : V → List V) (x y : V) : Prop := y ∈ adj x

/-- Reachability along dependency edges. -/
def Reaches (adj : V → List V) : V → V → Prop :=
  Relation.ReflTransGen (Step adj)

/-- A (non-trivial) cycle through `c`: an edge out of `c` whose target
reaches `c` again. -/
def CycleAt (adj : V → List V) (c : V) : Prop :=
  ∃ w, w ∈ adj c ∧ Reaches adj w c

omit [DecidableEq V] in
theorem runList_true_ex (g : List V → V → Bool × List V) :
    ∀ (l vis : List V), (runList g vis l).1 = true →
      ∃ w ∈ l, ∃ vis', (g vis' w).1 = true := by
  intro l
  induction l with
  | nil => intro vis h; simp [runList] at h
  | cons w ws ih =>
    intro vis h
    rw [runList] at h
    rcases hg : g vis w with ⟨b, vis'⟩
    rw [hg] at h
    cases b
    · obtain ⟨w', hw', vis'', h''⟩ := ih vis' h
      exact ⟨w', List.mem_cons_of_mem _ hw', vis'', h''⟩
    · exact ⟨w, List.mem_cons_self _ _, vis, by rw [hg]⟩

/-- Soundness of `dfs`: a `true` answer exhibits a cycle reachable from
any node `r` that reaches the current node, provided every ancestor has
an edge-path to the current node (the invariant of the recursion). -/
theorem dfs_sound (adj : V → List V) :
    ∀ (fuel : Nat) (anc vis : List V) (u r : V),
      Reaches adj r u →
      (∀ x ∈ anc, ∃ w ∈ adj x, Reaches adj w u) →
      (dfs adj fuel anc vis u).1 = true →
      ∃ c, Reaches adj r c ∧ CycleAt adj c := by
  intro fuel
  induction fuel with
  | zero => intro anc vis u r _ _ h; simp [dfs] at h
  | succ fuel ih =>
    intro anc vis u r hru hanc h
    rw [dfs] at h
    by_cases hmem : u ∈ anc
    · obtain ⟨w, hw, hwu⟩ := hanc u hmem
      exact ⟨u, hru, w, hw, hwu⟩
    · rw [if_neg hmem] at h
      by_cases hvis : u ∈ vis
      · rw [if_pos hvis] at h
        cases h
      · rw [if_neg hvis] at h
        obtain ⟨w, hwl, vis', hw⟩ := runList_true_ex _ _ _ h
        refine ih (u :: anc) vis' w r
          (Relation.ReflTransGen.tail hru hwl) ?_ hw
        intro x hx
        rcases List.mem_cons.mp hx with rfl | hx'
        · exact ⟨w, hwl, Relation.ReflTransGen.refl⟩
        · obtain ⟨wx, hwx, hwxu⟩ := hanc x hx'
          exact ⟨wx, hwx, Relation.ReflTransGen.tail hwxu hwl⟩

/-- A node that has been entered (visited) but is not on the current
path: Python's "black" state. -/
def Blackish (anc vis : List V) (x : V) : Prop := x ∈ vis ∧ x ∉ anc

/-- The invariant of the visited set: finished nodes are closed under
edges and none of them lies on a cycle. -/
def DfsInv (adj : V → List V) (anc vis : List V) : Prop :=
  (∀ x, Blackish anc vis x → ∀ w ∈ adj x, Blackish anc vis w) ∧
  (∀ x, Blackish anc vis x → ¬CycleAt adj x)

omit [DecidableEq V] in
theorem blackish_reach (adj : V → List V) {anc vis : List V}
    (hcl : ∀ x, Blackish anc vis x → ∀ w ∈ adj x, Blackish anc vis w)
    {x y : V} (hx : Blackish anc vis x) (hr : Reaches adj x y) :
    Blackish anc vis y := by
  induction hr with
  | refl => exact hx
  | tail _ hbc ihb => exact hcl _ ihb _ hbc

omit [DecidableEq V] in
theorem blackish_push (anc vis : List V) (u : V) (hu : u ∉ vis) (x : V) :
    Blackish (u :: anc) (u :: vis) x ↔ Blackish anc vis x := by
  unfold Blackish
  constructor
  · rintro ⟨h1, h2⟩
    rcases List.mem_cons.mp h1 with rfl | h1'
    · exact absurd (List.mem_cons_self x anc) h2
    · exact ⟨h1', fun hx => h2 (List.mem_cons_of_mem _ hx)⟩
  · rintro ⟨h1, h2⟩
    refine ⟨List.mem_cons_of_mem _ h1, ?_⟩
    intro hx
    rcases List.mem_cons.mp hx with rfl | hx'
    · exact hu h1
    · exact h2 hx'

omit [DecidableEq V] in
theorem dfsInv_push (adj : V → List V) (anc vis : List V) (u : V)
    (hu : u ∉ vis) (h : DfsInv adj anc vis) :
    DfsInv adj (u :: anc) (u :: vis) := by
  constructor
  · intro x hx w hw
    exact (blackish_push anc vis u hu w).mpr
      (h.1 x ((blackish_push anc vis u hu x).mp hx) w hw)
  · intro x hx
    exact h.2 x ((blackish_push anc vis u hu x).mp hx)

/-- Completeness invariant of `dfs`: a `false` answer leaves the visited
set grown, the entered node finished, and the invariant intact. -/
theorem dfs_complete (adj : V → List V) [Fintype V] :
    ∀ (fuel : Nat) (anc vis : List V) (u : V) (b : Bool) (vis' : List V),
      anc.Nodup → (∀ x ∈ anc, x ∈ vis) → DfsInv adj anc vis →
      Fintype.card V - anc.length < fuel →
      dfs adj fuel anc vis u = (b, vis') → b = false →
      (∀ x ∈ vis, x ∈ vis') ∧ Blackish anc vis' u ∧ DfsInv adj anc vis' ∧
        (∀ x ∈ anc, x ∈ vis') := by
  intro fuel
  induction fuel with
  | zero =>
    intro anc vis u b vis' _ _ _ hfuel
    exact absurd hfuel (by omega)
  | succ fuel ih =>
    intro anc vis u b vis' hnd hav hinv hfuel hdfs hb
    subst hb
    rw [dfs] at hdfs
    by_cases hanc : u ∈ anc
    · rw [if_pos hanc] at hdfs
      injection hdfs with h1 _
      cases h1
    · rw [if_neg hanc] at hdfs
      by_cases hvis : u ∈ vis
      · rw [if_pos hvis] at hdfs
        injection hdfs with _ h2
        subst h2
        exact ⟨fun x hx => hx, ⟨hvis, hanc⟩, hinv, hav⟩
      · rw [if_neg hvis] at hdfs
        have hnd' : (u :: anc).Nodup := List.nodup_cons.mpr ⟨hanc, hnd⟩
        have hlen : (u :: anc).length ≤ Fintype.card V :=
          List.Nodup.length_le_card hnd'
        have hfuel' : Fintype.card V - (u :: anc).length < fuel := by
          simp only [List.length_cons] at hlen ⊢
          omega
        have hav' : ∀ x ∈ u :: anc, x ∈ u :: vis := by
          intro x hx
          rcases List.mem_cons.mp hx with rfl | hx'
          · exact List.mem_cons_self _ _
          · exact List.mem_cons_of_mem _ (hav x hx')
        have hinv' : DfsInv adj (u :: anc) (u :: vis) :=
          dfsInv_push adj anc vis u hvis hinv
        have aux : ∀ (l : List V) (vis₀ : List V),
            (∀ x ∈ u :: anc, x ∈ vis₀) → DfsInv adj (u :: anc) vis₀ →
            ∀ (b₀ : Bool) (vis₁ : List V),
            runList (fun v w => dfs adj fuel (u :: anc) v w) vis₀ l =
              (b₀, vis₁) → b₀ = false →
            (∀ x ∈ vis₀, x ∈ vis₁) ∧ DfsInv adj (u :: anc) vis₁ ∧
              (∀ w ∈ l, Blackish (u :: anc) vis₁ w) ∧
              (∀ x ∈ u :: anc, x ∈ vis₁) := by
          intro l
          induction l with
          | nil =>
            intro vis₀ hav₀ hinv₀ b₀ vis₁ hrun hb₀
            injection hrun with _ h2
            subst h2
            exact ⟨fun x hx => hx, hinv₀, by simp, hav₀⟩
          | cons w ws ihw =>
            intro vis₀ hav₀ hinv₀ b₀ vis₁ hrun hb₀
            subst hb₀
            rw [runList] at hrun
            rcases hd : dfs adj fuel (u :: anc) vis₀ w with ⟨bw, visw⟩
            rw [hd] at hrun
            cases bw
            case false =>
              obtain ⟨hmono, hblackw, hinvw, hancw⟩ :=
                ih (u :: anc) vis₀ w false visw hnd' hav₀ hinv₀ hfuel' hd rfl
              obtain ⟨hmono2, hinv2, hblacks, hanc2⟩ :=
                ihw visw hancw hinvw false vis₁ hrun rfl
              refine ⟨fun x hx => hmono2 x (hmono x hx), hinv2, ?_, hanc2⟩
              intro w' hw'
              rcases List.mem_cons.mp hw' with rfl | hw''
              · exact ⟨hmono2 w' hblackw.1, hblackw.2⟩
              · exact hblacks w' hw''
            case true =>
              injection hrun with h1 _
              cases h1
        obtain ⟨hmono, hinv₂, hdeps, hanc₂⟩ :=
          aux (adj u) (u :: vis) hav' hinv' false vis' hdfs rfl
        have hu_vis' : u ∈ vis' := hanc₂ u (List.mem_cons_self _ _)
        have hweak : ∀ x, Blackish (u :: anc) vis' x →
            Blackish anc vis' x := by
          intro x hx
          exact ⟨hx.1, fun h => hx.2 (List.mem_cons_of_mem _ h)⟩
        have hsplit : ∀ x, Blackish anc vis' x →
            x = u ∨ Blackish (u :: anc) vis' x := by
          intro x hx
          by_cases hxu : x = u
          · exact Or.inl hxu
          · exact Or.inr
              ⟨hx.1, fun hmem => (List.mem_cons.mp hmem).elim hxu hx.2⟩
        refine ⟨fun x hx => hmono x (List.mem_cons_of_mem _ hx),
          ⟨hu_vis', hanc⟩, ⟨?_, ?_⟩,
          fun x hx => hanc₂ x (List.mem_cons_of_mem _ hx)⟩
        · intro x hx w hw
          rcases hsplit x hx with rfl | hbx
          · exact hweak w (hdeps w hw)
          · exact hweak w (hinv₂.1 x hbx w hw)
        · intro x hx hcyc
          rcases hsplit x hx with rfl | hbx
          · obtain ⟨w, hw, hwx⟩ := hcyc
            have hbw := hdeps w hw
            have hbu := blackish_reach adj hinv₂.1 hbw hwx
            exact hbu.2 (List.mem_cons_self x anc)
          · exact hinv₂.2 x hbx hcyc

theorem hasCircularAux_sound (adj : V → List V) :
    ∀ (roots : List V) (fuel : Nat) (vis : List V),
      hasCircularAux adj fuel vis roots = true →
      ∃ r ∈ roots, ∃ c, Reaches adj r c ∧ CycleAt adj c := by
  intro roots
  induction roots with
  | nil => intro fuel vis h; simp [hasCircularAux] at h
  | cons t ts ih =>
    intro fuel vis h
    rw [hasCircularAux] at h
    rcases hd : dfs adj fuel [] vis t with ⟨b, vis'⟩
    rw [hd] at h
    cases b
    case false =>
      obtain ⟨r, hr, hc⟩ := ih fuel vis' h
      exact ⟨r, List.mem_cons_of_mem _ hr, hc⟩
    case true =>
      obtain ⟨c, hrc, hcyc⟩ := dfs_sound adj fuel [] vis t t
        Relation.ReflTransGen.refl (by simp) (by rw [hd])
      exact ⟨t, List.mem_cons_self _ _, c, hrc, hcyc⟩

theorem hasCircularAux_complete (adj : V → List V) [Fintype V] :
    ∀ (roots : List V) (vis : List V),
      DfsInv adj ([] : List V) vis →
      hasCircularAux adj (Fintype.card V + 1) vis roots = false →
      ∀ r ∈ roots, ¬∃ c, Reaches adj r c ∧ CycleAt adj c := by
  intro roots
  induction roots with
  | nil => intro vis _ _ r hr; cases hr
  | cons t ts ih =>
    intro vis hinv h r hr
    rw [hasCircularAux] at h
    rcases hd : dfs adj (Fintype.card V + 1) [] vis t with ⟨b, vis'⟩
    rw [hd] at h
    cases b
    case true => cases h
    case false =>
      obtain ⟨hmono, hbt, hinv', _⟩ :=
        dfs_complete adj (Fintype.card V + 1) [] vis t false vis'
          List.nodup_nil (by simp) hinv (by omega) hd rfl
      rcases List.mem_cons.mp hr with rfl | hr'
      · rintro ⟨c, hrc, hcyc⟩
        have hbc := blackish_reach adj hinv'.1 hbt hrc
        exact hinv'.2 c hbc hcyc
      · exact ih vis' hinv' h r hr'

end DfsProofs

/-- C8: `has_circular_dependencies` answers `true` exactly when the
dependency graph of the input tasks contains a cycle (a task with an
edge-path back to itself through its dependencies); and whenever it does,
`schedule` raises `CircularDependencyError` as its very first step,
before any constraint is built and before any solver call (the returned
error does not depend on the solver at all). -/
theorem cycle_detection_correct (P : Proj) :
    (hasCircularDependencies P.deps (List.finRange P.n) = true ↔
      ∃ c, CycleAt P.deps c) ∧
    ∀ (solve : List (Constr P.n) → Option (Assignment P.n))
      (team maxDays start : Nat) (f : Nat → Bool)
      (hf : ∀ n, ∃ m, n < m ∧ f m = true),
      hasCircularDependencies P.deps (List.finRange P.n) = true →
      schedule P solve team maxDays start f hf = .error .cycleDetected := by
  constructor
  · constructor
    · intro h
      unfold hasCircularDependencies at h
      obtain ⟨r, _, c, _, hcyc⟩ :=
        hasCircularAux_sound P.deps (List.finRange P.n) _ [] h
      exact ⟨c, hcyc⟩
    · rintro ⟨c, hcyc⟩
      by_contra hfalse
      have h : hasCircularDependencies P.deps (List.finRange P.n) = false := by
        revert hfalse
        cases hasCircularDependencies P.deps (List.finRange P.n) <;> simp
      unfold hasCircularDependencies at h
      have hinv : DfsInv P.deps ([] : List (Fin P.n)) [] := by
        constructor
        · intro x hx
          cases hx.1
        · intro x hx
          cases hx.1
      exact hasCircularAux_complete P.deps (List.finRange P.n) [] hinv h c
        (List.mem_finRange c) ⟨c, Relation.ReflTransGen.refl, hcyc⟩
  · intro solve team maxDays start f hf h
    unfold schedule
    rw [h]
    rfl

/-- Two tasks depending on each other: the cyclic graph of spec
scenario S4. -/
def cyclicProj : Proj :=
  ⟨2, fun _ => 1, fun _ => 1, fun i => if i = 0 then [1] else [0]⟩

/-- Witness for C8 at the two-task cycle: the iff's forward direction
produces the cycle from the computed `true`, and `schedule` returns
`CycleDetected` whatever the solver. -/
theorem cycle_detection_correct_witness :
    (∃ c, CycleAt cyclicProj.deps c) ∧
    schedule cyclicProj (fun _ => some (fun _ => 0)) 1 3 0 defaultWorkday
      defaultWorkday_inf = .error .cycleDetected :=
  ⟨(cycle_detection_correct cyclicProj).1.mp (by decide),
   (cycle_detection_correct cyclicProj).2 (fun _ => some (fun _ => 0)) 1 3 0
     defaultWorkday defaultWorkday_inf (by decide)⟩

end Ganttdsl
